import Mathlib

/-!
Verification of the `pw_pathux` path-string library (Unix target).

Path texts are modelled as `List Char` (the characters of a Rust `&str`).
The shallow embedding follows `src/str_path.rs` and `src/lib.rs`:

* `nativeComponents` embeds `std::path::Path::components()` under Unix
  lexical rules: the text is split on `'/'`, empty segments (runs of
  separators, trailing separator) vanish, `"."` segments are kept only as
  the very first component of a relative path, `".."` is `ParentDir`.
* `str_path_components` embeds the `str_path_components!` macro: the
  native components with the enumerate/map substitution of a leading
  `Normal "~"` by `HomeDir`.
* `pathbuf_push` embeds `std::path::PathBuf::push` of one path fragment.
* The environment providers (`env::current_dir`, `dirs::home_dir`) are
  injected as `Option (List Char)` parameters; `none` models the provider
  failing, as the specification's `EnvironmentUnavailable`.
-/

/-- A Rust `&str` path text, as its list of characters. -/
abbrev Str := List Char

/-- The component model of `str_path.rs` (`enum StrPathComponent`),
restricted to the Unix components that `Path::components` can produce
(the Windows `Prefix` variant is never constructed on Unix). -/
inductive StrPathComponent : Type where
  | RootDir : StrPathComponent
  | HomeDir : StrPathComponent
  | CurDir : StrPathComponent
  | ParentDir : StrPathComponent
  | Normal : Str → StrPathComponent
deriving DecidableEq

/-- `StrPathComponent::is_cur_dir` from the source. -/
def StrPathComponent.is_cur_dir : StrPathComponent → Bool
  | .CurDir => true
  | _ => false

/-- `StrPathComponent::is_home_dir` from the source. -/
def StrPathComponent.is_home_dir : StrPathComponent → Bool
  | .HomeDir => true
  | _ => false

/-- `StrPathComponent::is_normal` from the source. -/
def StrPathComponent.is_normal : StrPathComponent → Bool
  | .Normal _ => true
  | _ => false

/-- `impl ToString for StrPathComponent` (Unix: `MAIN_SEPARATOR = '/'`). -/
def componentToString : StrPathComponent → Str
  | .RootDir => ['/']
  | .HomeDir => ['~']
  | .CurDir => ['.']
  | .ParentDir => ['.', '.']
  | .Normal s => s

/-- Does the text begin with the separator?  Embeds `Path::has_root`
(and hence `Path::is_absolute`) on Unix. -/
def startsWithSlash : Str → Bool
  | [] => false
  | c :: _ => c == '/'

/-- Split a text at every `'/'` (the separator occurrences themselves are
dropped, empty pieces are kept).  Auxiliary for the lexical rules of
`Path::components` on Unix. -/
def splitSlash : Str → List Str
  | [] => [[]]
  | c :: rest =>
    if c = '/' then [] :: splitSlash rest
    else
      match splitSlash rest with
      | [] => [[c]]
      | seg :: segs => (c :: seg) :: segs

/-- The non-empty separator-delimited segments of a path text: runs of
separators collapse and a trailing separator is ignored. -/
def segments (s : Str) : List Str :=
  (splitSlash s).filter (fun seg => seg ≠ [])

/-- Classify one non-empty segment the way `Path::components` does:
`"."` is `CurDir`, `".."` is `ParentDir`, anything else is `Normal`. -/
def classifySeg (seg : Str) : StrPathComponent :=
  if seg = ['.'] then .CurDir
  else if seg = ['.', '.'] then .ParentDir
  else .Normal seg

/-- Embeds `Path::new(s).components()` on Unix: a leading separator is
`RootDir`; `"."` segments are normalized away except as the first
component of a relative path; `".."` segments are preserved. -/
def nativeComponents (s : Str) : List StrPathComponent :=
  if startsWithSlash s then
    .RootDir :: ((segments s).filter (fun seg => seg ≠ ['.'])).map classifySeg
  else
    match segments s with
    | [] => []
    | first :: rest =>
      classifySeg first :: (rest.filter (fun seg => seg ≠ ['.'])).map classifySeg

/-- The enumerate/map of `str_path_components!`: the component at index 0
is replaced by `HomeDir` when it is `Normal "~"`; every other index is
kept unchanged. -/
def homeSubst (l : List StrPathComponent) : List StrPathComponent :=
  l.mapIdx fun i c => if i = 0 ∧ c = .Normal ['~'] then .HomeDir else c

/-- Embeds the `str_path_components!` macro. -/
def str_path_components (s : Str) : List StrPathComponent :=
  homeSubst (nativeComponents s)

/-- Embeds the `str_path_is_absolute!` macro: `false` when the first
classified component is `HomeDir`, native absoluteness otherwise. -/
def str_path_is_absolute (s : Str) : Bool :=
  match (str_path_components s).head? with
  | some .HomeDir => false
  | _ => startsWithSlash s

/-- Embeds the `str_path_is_relative!` macro: `false` when the first
classified component is `HomeDir`, native relativeness otherwise. -/
def str_path_is_relative (s : Str) : Bool :=
  match (str_path_components s).head? with
  | some .HomeDir => false
  | _ => !startsWithSlash s

/-- Embeds the `str_path_is_relative_to_home!` macro: `true` exactly when
the first classified component is `HomeDir`. -/
def str_path_is_relative_to_home (s : Str) : Bool :=
  match (str_path_components s).head? with
  | some .HomeDir => true
  | _ => false

/-- Embeds the `str_path_file_name!` macro (`Path::file_name`): the text
of the final native component when that component is `Normal`. -/
def str_path_file_name (s : Str) : Option Str :=
  match (nativeComponents s).getLast? with
  | some (.Normal n) => some n
  | _ => none

/-- Embeds `PathBuf::push` of a single fragment (Unix): an absolute
fragment replaces the buffer; otherwise the fragment is appended, with a
separator inserted unless the buffer is empty or already ends in one. -/
def pathbuf_push (b a : Str) : Str :=
  if startsWithSlash a then a
  else if b = [] then a
  else if b.getLast? = some '/' then b ++ a
  else b ++ '/' :: a

/-- Embeds `impl ToStringPath for [StrPathComponent]`: a fresh `PathBuf`
into which each component's rendering is pushed in order. -/
def to_string_path (l : List StrPathComponent) : Str :=
  l.foldl (fun b c => pathbuf_push b (componentToString c)) []

/-- Embeds the `str_path_parent!` macro (`Path::parent`): drop the final
native component and re-render, none when there is no final component or
it is `RootDir`. -/
def str_path_parent (s : Str) : Option Str :=
  match (nativeComponents s).getLast? with
  | some (.Normal _) | some .CurDir | some .ParentDir =>
      some (to_string_path (nativeComponents s).dropLast)
  | _ => none

/-- Embeds the `str_path_join!` macro (`Path::join`, i.e. one
`PathBuf::push` of the second text onto the first). -/
def str_path_join (s1 s2 : Str) : Str :=
  pathbuf_push s1 s2

/-- The typed failures of the resolver, per the specification's error
model: the environment fact could not be determined, or a relative-to-X
computation was asked for a path not rooted under X (the specification's
names are `EnvironmentUnavailable` and `PrefixMismatch`). -/
inductive PathError : Type where
  | envUnavailable : PathError
  | mismatch : PathError
deriving DecidableEq

/-- Rust's `io::Result`, with the typed error model above. -/
inductive IoResult (α : Type) : Type where
  | ok : α → IoResult α
  | err : PathError → IoResult α
deriving DecidableEq

/-- Embeds the `str_path_absolute!` macro.  `cwd` and `home` are the
injected environment providers (`env::current_dir`, `dirs::home_dir`);
`none` models provider failure.  In the relative branch the native
components after the leading `CurDir` run are pushed one by one onto the
current directory; in the home branch the native components after the
leading `"~"` are pushed one by one onto the home directory. -/
def str_path_absolute (cwd home : Option Str) (s : Str) : IoResult Str :=
  if str_path_is_absolute s then .ok s
  else if str_path_is_relative s then
    match cwd with
    | some cur_dir =>
        .ok (((nativeComponents s).dropWhile StrPathComponent.is_cur_dir).foldl
          (fun b c => pathbuf_push b (componentToString c)) cur_dir)
    | none => .err .envUnavailable
  else
    match home with
    | some home_dir =>
        .ok (((nativeComponents s).drop 1).foldl
          (fun b c => pathbuf_push b (componentToString c)) home_dir)
    | none => .err .envUnavailable

/-! The `std::path::Components` iterator, modelled faithfully so that
`Components::as_path` — which slices the ORIGINAL text rather than
re-rendering components — can be embedded exactly.  The iterator state
is the remaining text plus the front parsing state; stepping consumes
one component's characters together with the separator that follows
it.  `as_path` trims leading and trailing pieces that parse to no
component (separator runs and normalized-away `"."` segments), exactly
as `trim_left`/`trim_right` do in the standard library. -/

/-- The text of the first separator-delimited piece of the remaining
text (empty when the text starts with a separator). -/
def takeSeg : Str → Str
  | [] => []
  | c :: r => if c = '/' then [] else c :: takeSeg r

/-- The remaining text after the first piece and the separator that
closes it (empty when no separator follows, as in the iterator, which
then consumes the whole text). -/
def dropSeg : Str → Str
  | [] => []
  | c :: r => if c = '/' then r else dropSeg r

/-- `Components::parse_single_component` (Unix, non-verbatim): empty
pieces and `"."` parse to no component, `".."` to `ParentDir`, anything
else to `Normal`. -/
def parseSingle (seg : Str) : Option StrPathComponent :=
  if seg = [] then none
  else if seg = ['.'] then none
  else if seg = ['.', '.'] then some .ParentDir
  else some (.Normal seg)

/-- Every separator-delimited piece of a body text, each paired with the
remaining text after that piece and its closing separator — the
successive `(parse_next_component, advanced path)` values of the
front-parsing loop. -/
def segRests : Str → List (Str × Str)
  | [] => [([], [])]
  | c :: rest =>
    if c = '/' then ([], rest) :: segRests rest
    else
      match segRests rest with
      | [] => [([c], [])]
      | (seg, r) :: tail => (c :: seg, r) :: tail

/-- One step of the front body loop of `Components::next`: skip pieces
that parse to no component, return the first real component together
with the advanced remaining text. -/
def bodyNext (p : Str) : Option (StrPathComponent × Str) :=
  (segRests p).findSome? fun e => (parseSingle e.1).map fun comp => (comp, e.2)

/-- All components the body loop will emit from a remaining text. -/
def bodyToList (p : Str) : List StrPathComponent :=
  (splitSlash p).filterMap parseSingle

/-- The front state of the components iterator (`State::Prefix` never
arises on Unix, `Done` is path-exhaustion). -/
inductive FrontState : Type where
  | startDir : FrontState
  | body : FrontState
deriving DecidableEq

/-- The `Components` iterator state: remaining text, whether the
original path had a physical root, and the front state. -/
structure ComponentsM : Type where
  path : Str
  root : Bool
  front : FrontState
deriving DecidableEq

/-- `Components::include_cur_dir` for a rootless path: the text is
exactly `"."`, or starts with `"."` followed by a separator. -/
def includeCurDir : Str → Bool
  | [] => false
  | c :: rest =>
    if c = '.' then
      match rest with
      | [] => true
      | d :: _ => d == '/'
    else false

/-- `Path::new(s).components()`. -/
def componentsOf (s : Str) : ComponentsM :=
  ⟨s, startsWithSlash s, .startDir⟩

/-- `Components::next`: in the start state emit `RootDir` (dropping the
separator character) or a leading `CurDir` (dropping the dot), else fall
through to the body loop. -/
def iterNext : ComponentsM → Option (StrPathComponent × ComponentsM)
  | ⟨p, root, .startDir⟩ =>
    if root then some (.RootDir, ⟨p.drop 1, root, .body⟩)
    else if includeCurDir p then some (.CurDir, ⟨p.drop 1, root, .body⟩)
    else
      match bodyNext p with
      | some cr => some (cr.1, ⟨cr.2, root, .body⟩)
      | none => none
  | ⟨p, root, .body⟩ =>
    match bodyNext p with
    | some cr => some (cr.1, ⟨cr.2, root, .body⟩)
    | none => none

/-- The components an iterator state will still emit. -/
def iterToList (it : ComponentsM) : List StrPathComponent :=
  match it.front with
  | .startDir =>
    if it.root then .RootDir :: bodyToList (it.path.drop 1)
    else if includeCurDir it.path then .CurDir :: bodyToList (it.path.drop 1)
    else bodyToList it.path
  | .body => bodyToList it.path

/-- `iter_after` from `Path::strip_prefix`: consume the given component
sequence from the iterator, failing on the first disagreement; on
success return the iterator state positioned after the prefix. -/
def iterAfter : ComponentsM → List StrPathComponent → Option ComponentsM
  | it, [] => some it
  | it, c :: cs =>
    match iterNext it with
    | some cr => if cr.1 = c then iterAfter cr.2 cs else none
    | none => none

/-- Every separator-delimited piece of a body text, each paired with the
suffix of the text that starts at that piece — the successive
`(parse_next_component, current path)` values of the trimming loops. -/
def segStarts : Str → List (Str × Str)
  | [] => [([], [])]
  | c :: rest =>
    if c = '/' then ([], c :: rest) :: segStarts rest
    else
      match segStarts rest with
      | [] => [([c], [c])]
      | (seg, _) :: tail => (c :: seg, c :: rest) :: tail

/-- `Components::trim_left`: drop leading pieces that parse to no
component, stopping at the first real component (empty text if none). -/
def trimLeft (p : Str) : Str :=
  match (segStarts p).find? (fun e => (parseSingle e.1).isSome) with
  | some e => e.2
  | none => []

/-- `Components::trim_right` on a rootless body, implemented on the
reversed text: drop trailing pieces that parse to no component. -/
def trimLeftRev (p : Str) : Str :=
  match (segStarts p).find? (fun e => (parseSingle e.1.reverse).isSome) with
  | some e => e.2
  | none => []

/-- Right-trim a body text of trailing separator runs and
normalized-away `"."` pieces. -/
def rtrimBody (q : Str) : Str :=
  (trimLeftRev q.reverse).reverse

/-- `Components::as_path`: trim the left when the front is already in
the body, keep a root character still at the front (`len_before_body`),
and trim the right of the body. -/
def asPath (it : ComponentsM) : Str :=
  let p := if it.front = .body then trimLeft it.path else it.path
  let n := if it.front = .startDir ∧ it.root = true then 1 else 0
  p.take n ++ rtrimBody (p.drop n)

/-- Embeds `Path::strip_prefix`: consume the base's components from the
path's iterator; on success the remainder is the iterator's `as_path` —
a trimmed slice of the original text, not a re-rendering. -/
def strip_base (s base : Str) : Option Str :=
  (iterAfter (componentsOf s) (nativeComponents base)).map asPath

/-- Embeds the `str_path_simple_relative!` macro: fetch the current
directory, compute the absolute form, and strip the current directory
from it component-wise (a strip failure is the specification's
`PrefixMismatch`).  The remainder text is returned as is
(`to_string_lossy` of the remaining sub-path). -/
def str_path_simple_relative (cwd home : Option Str) (s : Str) : IoResult Str :=
  match cwd with
  | none => .err .envUnavailable
  | some curr_dir =>
    match str_path_absolute cwd home s with
    | .ok abs_path =>
      match strip_base abs_path curr_dir with
      | some rest => .ok rest
      | none => .err .mismatch
    | .err e => .err e

/-- Embeds the `str_path_simple_relative_home!` macro: like
`str_path_simple_relative` but stripping the home directory and
re-anchoring the raw remainder text under a rendered `"~"` (two
`PathBuf::push` calls on an empty buffer). -/
def str_path_simple_relative_home (cwd home : Option Str) (s : Str) : IoResult Str :=
  match home with
  | none => .err .envUnavailable
  | some home_dir =>
    match str_path_absolute cwd home s with
    | .ok abs_path =>
      match strip_base abs_path home_dir with
      | some rest => .ok (pathbuf_push (pathbuf_push [] ['~']) rest)
      | none => .err .mismatch
    | .err e => .err e

/-- Embeds `lib.rs`'s `expand_home_dir`.  The filesystem is injected as
the predicate `ex` (`Path::exists`), the home provider as `home`.  An
absolute path is returned unchanged; for a relative, non-existing path
the code takes `components.next()` once, and when that first component
is `Normal "~"` and a home directory is available it joins
`components.as_path()` — the raw remaining text — onto the home
directory (one `PathBuf::push`); every other case yields `none`. -/
def expand_home_dir (ex : Str → Bool) (home : Option Str) (path : Str) : Option Str :=
  if startsWithSlash path then some path
  else if ex path = false then
    match iterNext (componentsOf path) with
    | some (.Normal t, it) =>
      if t = ['~'] then
        match home with
        | some home_dir => some (pathbuf_push home_dir (asPath it))
        | none => none
      else none
    | _ => none
  else none

/-- The coarse `io::ErrorKind` classification that `usable_dir_entries`
distinguishes: `NotFound`, `PermissionDenied`, and every other kind
(collapsed into one constructor, since the code treats them all alike). -/
inductive IoKind : Type where
  | notFound : IoKind
  | permissionDenied : IoKind
  | other : IoKind
deriving DecidableEq

/-- `std::fs::FileType`, by its three classifiers. -/
inductive FileTypeM : Type where
  | dir : FileTypeM
  | file : FileTypeM
  | symlink : FileTypeM
deriving DecidableEq

/-- One `DirEntry` as `usable_dir_entries` consumes it: its name and the
outcome of its `metadata()` call (whose file type is all the code uses). -/
structure DirEntryM : Type where
  name : Str
  meta : Except IoKind FileTypeM

/-- The `UsableDirEntry` the code builds from a successful entry. -/
structure UsableDirEntryM : Type where
  name : Str
  file_type : FileTypeM
deriving DecidableEq

/-- What a call of `usable_dir_entries` does, observably: a successful
entry list together with the stderr reports it emitted, a typed error
(the `?` on `read_dir`), or a process abort. -/
inductive ListingOutcome : Type where
  | ok : List UsableDirEntryM → List Str → ListingOutcome
  | err : IoKind → ListingOutcome
  | abort : ListingOutcome
deriving DecidableEq

/-- The entry loop of `usable_dir_entries`: each per-entry result is a
successful entry (whose `metadata()` may itself fail) or a failed read.
`NotFound` is skipped silently, `PermissionDenied` is reported to stderr
(the entry, or the directory path for a failed read) and skipped, and
any other kind aborts the process. -/
def processEntries (dirPath : Str) :
    List (Except IoKind DirEntryM) → ListingOutcome
  | [] => .ok [] []
  | .ok de :: rest =>
    match de.meta with
    | .ok ft =>
      match processEntries dirPath rest with
      | .ok es reps => .ok (⟨de.name, ft⟩ :: es) reps
      | out => out
    | .error .notFound => processEntries dirPath rest
    | .error .permissionDenied =>
      match processEntries dirPath rest with
      | .ok es reps => .ok es (de.name :: reps)
      | out => out
    | .error .other => .abort
  | .error k :: rest =>
    match k with
    | .notFound => processEntries dirPath rest
    | .permissionDenied =>
      match processEntries dirPath rest with
      | .ok es reps => .ok es (dirPath :: reps)
      | out => out
    | .other => .abort

/-- Embeds `usable_dir_entries`: `read_dir` may fail wholesale (its error
propagates as the call's typed result via `?`), otherwise the entries
are processed in order. -/
def usable_dir_entries (dirPath : Str)
    (read_dir : Except IoKind (List (Except IoKind DirEntryM))) : ListingOutcome :=
  match read_dir with
  | .error k => .err k
  | .ok lst => processEntries dirPath lst

/-- Does a per-entry result carry an error kind other than `NotFound` and
`PermissionDenied`?  (Specification-side helper used to state what the
loop does.) -/
def entryOther : Except IoKind DirEntryM → Bool
  | .ok de => match de.meta with
    | .error .other => true
    | _ => false
  | .error k => k == .other

/-- The entries a fully benign listing returns, in order. -/
def listSuccesses (lst : List (Except IoKind DirEntryM)) : List UsableDirEntryM :=
  lst.filterMap fun e =>
    match e with
    | .ok de => match de.meta with
      | .ok ft => some ⟨de.name, ft⟩
      | _ => none
    | .error _ => none

/-- The permission-denied reports a fully benign listing emits, in
order. -/
def listReports (dirPath : Str) (lst : List (Except IoKind DirEntryM)) : List Str :=
  lst.filterMap fun e =>
    match e with
    | .ok de => match de.meta with
      | .error .permissionDenied => some de.name
      | _ => none
    | .error .permissionDenied => some dirPath
    | .error _ => none

/-- Join a list of texts with a separator in front of each (the shape a
`PathBuf` takes after successive pushes of relative fragments). -/
def sepJoin (rs : List Str) : Str :=
  (rs.map (fun r => '/' :: r)).flatten

/-- A text that can occur as a `Normal` segment of a classified sequence:
non-empty, separator-free, and not one of the special dot segments. -/
def goodSeg (seg : Str) : Prop :=
  seg ≠ [] ∧ '/' ∉ seg ∧ seg ≠ ['.'] ∧ seg ≠ ['.', '.']

/-- A component that can occur past index 0 of a classified sequence. -/
def bodyOK : StrPathComponent → Prop
  | .ParentDir => True
  | .Normal n => goodSeg n
  | _ => False

/-- A component that can occur at index 0 of a classified sequence (a
`Normal` head cannot be the bare `"~"`: that classifies as `HomeDir`). -/
def headOK : StrPathComponent → Prop
  | .Normal n => goodSeg n ∧ n ≠ ['~']
  | _ => True

/-- The well-formed classified sequences: exactly the possible outputs of
`str_path_components`. -/
def WF : List StrPathComponent → Prop
  | [] => True
  | h :: t => headOK h ∧ ∀ c ∈ t, bodyOK c

/-! ### Lemmas about splitting and segments -/

theorem splitSlash_ne_nil (s : Str) : splitSlash s ≠ [] := by
  cases s with
  | nil => simp [splitSlash]
  | cons c rest =>
    by_cases h : c = '/'
    · simp [splitSlash, h]
    · simp only [splitSlash, if_neg h]
      cases hr : splitSlash rest <;> simp

theorem not_slash_mem_splitSlash {s seg : Str} (h : seg ∈ splitSlash s) : '/' ∉ seg := by
  induction s generalizing seg with
  | nil =>
    simp [splitSlash] at h
    simp [h]
  | cons c rest ih =>
    by_cases hc : c = '/'
    · simp only [splitSlash, if_pos hc, List.mem_cons] at h
      rcases h with h | h
      · simp [h]
      · exact ih h
    · simp only [splitSlash, if_neg hc] at h
      cases hr : splitSlash rest with
      | nil => exact absurd hr (splitSlash_ne_nil rest)
      | cons seg0 segs =>
        rw [hr] at h
        rcases List.mem_cons.mp h with h | h
        · subst h
          intro hmem
          rcases List.mem_cons.mp hmem with h | h
          · exact hc h.symm
          · exact ih (hr ▸ List.mem_cons_self seg0 segs) h
        · exact ih (hr ▸ List.mem_cons_of_mem seg0 h)

theorem splitSlash_append_slash (xs ys : Str) :
    splitSlash (xs ++ '/' :: ys) = splitSlash xs ++ splitSlash ys := by
  induction xs with
  | nil => simp [splitSlash]
  | cons x xs ih =>
    by_cases hx : x = '/'
    · simp [splitSlash, hx, ih]
    · obtain ⟨seg, segs, hr⟩ : ∃ seg segs, splitSlash xs = seg :: segs := by
        cases h : splitSlash xs with
        | nil => exact absurd h (splitSlash_ne_nil xs)
        | cons a b => exact ⟨a, b, rfl⟩
      have h1 : splitSlash (x :: xs) = (x :: seg) :: segs := by
        simp [splitSlash, hx, hr]
      have h2 : splitSlash (xs ++ '/' :: ys) = seg :: (segs ++ splitSlash ys) := by
        rw [ih, hr]; rfl
      have h3 : splitSlash (x :: xs ++ '/' :: ys) = (x :: seg) :: (segs ++ splitSlash ys) := by
        rw [List.cons_append]
        simp [splitSlash, hx, h2]
      rw [h1, h3]
      rfl

theorem splitSlash_no_slash {xs : Str} (h : '/' ∉ xs) : splitSlash xs = [xs] := by
  induction xs with
  | nil => rfl
  | cons x xs ih =>
    have hx : x ≠ '/' := fun hx => h (hx ▸ List.mem_cons_self x xs)
    have hxs : '/' ∉ xs := fun hm => h (List.mem_cons_of_mem x hm)
    simp only [splitSlash, if_neg (fun hh => hx hh)]
    rw [ih hxs]

theorem segments_nil : segments [] = [] := by decide

theorem segments_append_slash (xs ys : Str) :
    segments (xs ++ '/' :: ys) = segments xs ++ segments ys := by
  unfold segments
  rw [splitSlash_append_slash, List.filter_append]

theorem segments_single {r : Str} (h : '/' ∉ r) (h2 : r ≠ []) : segments r = [r] := by
  unfold segments
  rw [splitSlash_no_slash h]
  simp [h2]

theorem mem_segments_good {s seg : Str} (h : seg ∈ segments s) :
    seg ≠ [] ∧ '/' ∉ seg := by
  unfold segments at h
  rcases List.mem_filter.mp h with ⟨hmem, hne⟩
  refine ⟨by simpa using hne, not_slash_mem_splitSlash hmem⟩

theorem segments_cons_sepJoin {r0 : Str} (rs : List Str)
    (h0 : r0 ≠ [] ∧ '/' ∉ r0) (hrs : ∀ r ∈ rs, r ≠ [] ∧ '/' ∉ r) :
    segments (r0 ++ sepJoin rs) = r0 :: rs := by
  induction rs generalizing r0 with
  | nil =>
    simp only [sepJoin, List.map_nil, List.flatten_nil, List.append_nil]
    exact segments_single h0.2 h0.1
  | cons r rs ih =>
    have hsep : sepJoin (r :: rs) = '/' :: (r ++ sepJoin rs) := by
      simp [sepJoin]
    rw [hsep, segments_append_slash]
    rw [segments_single h0.2 h0.1]
    rw [ih (hrs r (List.mem_cons_self r rs)) (fun x hx => hrs x (List.mem_cons_of_mem r hx))]
    rfl

/-! ### Lemmas about `pathbuf_push` and rendering -/

theorem startsWithSlash_eq_false {a : Str} (h : '/' ∉ a) : startsWithSlash a = false := by
  cases a with
  | nil => rfl
  | cons c rest =>
    have : c ≠ '/' := fun hc => h (hc ▸ List.mem_cons_self c rest)
    simp [startsWithSlash, this]

theorem mem_of_getLast?_eq {α : Type _} {l : List α} {x : α} (h : l.getLast? = some x) :
    x ∈ l := by
  induction l with
  | nil => simp at h
  | cons a l ih =>
    cases l with
    | nil =>
      simp only [List.getLast?_singleton, Option.some.injEq] at h
      simp [h]
    | cons b l =>
      rw [List.getLast?_cons_cons] at h
      exact List.mem_cons_of_mem a (ih h)

theorem getLast?_ne_slash {r : Str} (h : '/' ∉ r) : r.getLast? ≠ some '/' :=
  fun hl => h (mem_of_getLast?_eq hl)

theorem pathbuf_push_eq_append {b a : Str} (hb : b ≠ []) (hl : b.getLast? ≠ some '/')
    (ha : startsWithSlash a = false) : pathbuf_push b a = b ++ '/' :: a := by
  unfold pathbuf_push
  rw [ha, if_neg (by simp), if_neg hb, if_neg hl]

theorem foldl_push_sepJoin (rs : List Str) (b : Str) (hb : b ≠ [])
    (hl : b.getLast? ≠ some '/') (hrs : ∀ r ∈ rs, r ≠ [] ∧ '/' ∉ r) :
    List.foldl pathbuf_push b rs = b ++ sepJoin rs := by
  induction rs generalizing b with
  | nil => simp [sepJoin]
  | cons r rs ih =>
    have hr := hrs r (List.mem_cons_self r rs)
    have hpush : pathbuf_push b r = b ++ '/' :: r :=
      pathbuf_push_eq_append hb hl (startsWithSlash_eq_false hr.2)
    have hlast : (b ++ '/' :: r).getLast? = r.getLast? := by
      cases hr0 : r with
      | nil => exact absurd hr0 hr.1
      | cons x xs =>
        rw [List.getLast?_append]
        simp [List.getLast?_cons_cons]
        cases h : (x :: xs).getLast? with
        | none => simp [List.getLast?] at h
        | some y => simp
    rw [List.foldl_cons, hpush,
      ih (b ++ '/' :: r) (by simp) (hlast ▸ getLast?_ne_slash hr.2)
        (fun x hx => hrs x (List.mem_cons_of_mem r hx))]
    simp [sepJoin]

theorem startsWithSlash_pathbuf_push {b : Str} (a : Str)
    (hb : startsWithSlash b = true) : startsWithSlash (pathbuf_push b a) = true := by
  have hbne : b ≠ [] := by cases b <;> simp_all [startsWithSlash]
  have hhead : ∀ t : Str, startsWithSlash (b ++ t) = true := by
    intro t
    cases b with
    | nil => exact absurd rfl hbne
    | cons c r => simpa [startsWithSlash] using hb
  unfold pathbuf_push
  by_cases ha : startsWithSlash a = true
  · simp [ha]
  · simp only [Bool.not_eq_true] at ha
    rw [ha]
    simp only [Bool.false_eq_true, if_false, if_neg hbne]
    split
    · exact hhead a
    · exact hhead ('/' :: a)

theorem startsWithSlash_foldl_push {b : Str} (l : List StrPathComponent)
    (hb : startsWithSlash b = true) :
    startsWithSlash (l.foldl (fun b c => pathbuf_push b (componentToString c)) b) = true := by
  induction l generalizing b with
  | nil => exact hb
  | cons c l ih => exact ih (startsWithSlash_pathbuf_push _ hb)

/-! ### Lemmas about the classifier -/

theorem homeSubst_nil : homeSubst [] = [] := rfl

theorem homeSubst_cons (c : StrPathComponent) (l : List StrPathComponent) :
    homeSubst (c :: l) = (if c = .Normal ['~'] then .HomeDir else c) :: l := by
  unfold homeSubst
  rw [List.mapIdx_cons]
  have hrest : (l.mapIdx fun i c =>
      if i + 1 = 0 ∧ c = StrPathComponent.Normal ['~'] then .HomeDir else c) = l := by
    induction l with
    | nil => rfl
    | cons a t ih =>
      rw [List.mapIdx_cons]
      simp only [Nat.succ_ne_zero, false_and, if_false]
      exact congrArg _ ih
  rw [hrest]
  by_cases hc : c = StrPathComponent.Normal ['~'] <;> simp [hc]

theorem classifySeg_ne_home (seg : Str) : classifySeg seg ≠ .HomeDir := by
  unfold classifySeg
  split
  · simp
  · split <;> simp

theorem homeDir_not_mem_native (s : Str) : .HomeDir ∉ nativeComponents s := by
  unfold nativeComponents
  split
  · intro h
    rcases List.mem_cons.mp h with h | h
    · exact StrPathComponent.noConfusion h.symm
    · rcases List.mem_map.mp h with ⟨seg, _, hs⟩
      exact classifySeg_ne_home seg hs
  · split
    · simp
    · intro h
      rcases List.mem_cons.mp h with h | h
      · exact classifySeg_ne_home _ h.symm
      · rcases List.mem_map.mp h with ⟨seg, _, hs⟩
        exact classifySeg_ne_home seg hs

theorem native_of_slash {s : Str} (h : startsWithSlash s = true) :
    nativeComponents s =
      .RootDir :: ((segments s).filter (fun seg => seg ≠ ['.'])).map classifySeg := by
  unfold nativeComponents
  rw [if_pos h]

theorem components_head_of_slash {s : Str} (h : startsWithSlash s = true) :
    (str_path_components s).head? = some .RootDir := by
  unfold str_path_components
  rw [native_of_slash h, homeSubst_cons]
  simp

theorem is_absolute_eq_startsWithSlash (s : Str) :
    str_path_is_absolute s = startsWithSlash s := by
  unfold str_path_is_absolute
  by_cases h : startsWithSlash s = true
  · rw [components_head_of_slash h]
  · split
    · next heq =>
      simp only [Bool.not_eq_true] at h
      rw [h]
    · rfl

theorem components_head?_eq (s : Str) :
    (str_path_components s).head? =
      match (nativeComponents s).head? with
      | some c => some (if c = .Normal ['~'] then .HomeDir else c)
      | none => none := by
  unfold str_path_components
  cases h : nativeComponents s with
  | nil => simp [homeSubst_nil]
  | cons c l => rw [homeSubst_cons]; simp

/-! ### Round-trip lemmas: classified sequences are well-formed, and
rendering then re-classifying a well-formed sequence is the identity -/

theorem bodyOK_render {c : StrPathComponent} (h : bodyOK c) :
    componentToString c ≠ [] ∧ '/' ∉ componentToString c ∧ componentToString c ≠ ['.'] ∧
      classifySeg (componentToString c) = c := by
  cases c with
  | ParentDir => exact ⟨by decide, by decide, by decide, by decide⟩
  | Normal n =>
    rcases h with ⟨h1, h2, h3, h4⟩
    exact ⟨h1, h2, h3, by
      simp only [componentToString]
      unfold classifySeg
      rw [if_neg h3, if_neg h4]⟩
  | RootDir => exact h.elim
  | HomeDir => exact h.elim
  | CurDir => exact h.elim

theorem bodyOK_renders_good {t : List StrPathComponent} (hb : ∀ c ∈ t, bodyOK c) :
    ∀ r ∈ t.map componentToString, r ≠ [] ∧ '/' ∉ r := by
  intro r hr
  rcases List.mem_map.mp hr with ⟨c, hc, rfl⟩
  obtain ⟨h1, h2, -, -⟩ := bodyOK_render (hb c hc)
  exact ⟨h1, h2⟩

theorem filter_map_render {t : List StrPathComponent} (hb : ∀ c ∈ t, bodyOK c) :
    (((t.map componentToString).filter (fun seg => seg ≠ ['.'])).map classifySeg) = t := by
  induction t with
  | nil => rfl
  | cons c t ih =>
    obtain ⟨-, -, h3, h4⟩ := bodyOK_render (hb c (List.mem_cons_self c t))
    rw [List.map_cons, List.filter_cons_of_pos (by simpa using h3), List.map_cons, h4,
      ih (fun x hx => hb x (List.mem_cons_of_mem c hx))]

theorem bodyOK_classifySeg {seg : Str} (hne : seg ≠ []) (hsl : '/' ∉ seg)
    (hdot : seg ≠ ['.']) : bodyOK (classifySeg seg) := by
  unfold classifySeg
  rw [if_neg hdot]
  split
  · trivial
  · next hdd => exact ⟨hne, hsl, hdot, hdd⟩

theorem headOK_classifySeg {seg : Str} (hne : seg ≠ []) (hsl : '/' ∉ seg)
    (hnt : classifySeg seg ≠ .Normal ['~']) : headOK (classifySeg seg) := by
  unfold classifySeg at hnt ⊢
  by_cases h1 : seg = ['.']
  · rw [if_pos h1]; exact trivial
  · rw [if_neg h1] at hnt ⊢
    by_cases h2 : seg = ['.', '.']
    · rw [if_pos h2]; exact trivial
    · rw [if_neg h2] at hnt ⊢
      exact ⟨⟨hne, hsl, h1, h2⟩, fun hh => hnt (by rw [hh])⟩

theorem classify_WF (s : Str) : WF (str_path_components s) := by
  have hbody : ∀ (l : List Str), (∀ seg ∈ l, seg ≠ [] ∧ '/' ∉ seg) →
      ∀ c ∈ (l.filter (fun seg => seg ≠ ['.'])).map classifySeg, bodyOK c := by
    intro l hl c hc
    rcases List.mem_map.mp hc with ⟨seg, hseg, rfl⟩
    rcases List.mem_filter.mp hseg with ⟨hmem, hdot⟩
    obtain ⟨hne, hsl⟩ := hl seg hmem
    exact bodyOK_classifySeg hne hsl (by simpa using hdot)
  unfold str_path_components
  by_cases hs : startsWithSlash s = true
  · rw [native_of_slash hs, homeSubst_cons, if_neg (by simp)]
    exact ⟨trivial, hbody _ (fun seg hseg => mem_segments_good hseg)⟩
  · rw [nativeComponents, if_neg hs]
    cases hseg : segments s with
    | nil => exact trivial
    | cons first rest =>
      rw [homeSubst_cons]
      constructor
      · by_cases ht : classifySeg first = .Normal ['~']
        · rw [if_pos ht]; exact trivial
        · rw [if_neg ht]
          obtain ⟨hne, hsl⟩ := mem_segments_good (hseg ▸ List.mem_cons_self first rest)
          exact headOK_classifySeg hne hsl ht
      · exact hbody _ (fun seg hmem =>
          mem_segments_good (hseg ▸ List.mem_cons_of_mem first hmem))

theorem native_cons_render {r0 : Str} (rs : List Str) (h0 : r0 ≠ [] ∧ '/' ∉ r0)
    (hrs : ∀ r ∈ rs, r ≠ [] ∧ '/' ∉ r) :
    nativeComponents (r0 ++ sepJoin rs) =
      classifySeg r0 :: (rs.filter (fun seg => seg ≠ ['.'])).map classifySeg := by
  have hsw : startsWithSlash (r0 ++ sepJoin rs) = false := by
    cases r0 with
    | nil => exact absurd rfl h0.1
    | cons ch rest =>
      have hch : ch ≠ '/' := fun hc => h0.2 (hc ▸ List.mem_cons_self ch rest)
      simp [startsWithSlash, hch]
  rw [nativeComponents, if_neg (by rw [hsw]; simp),
    segments_cons_sepJoin rs h0 hrs]

theorem to_string_path_cons (hd : StrPathComponent) (t : List StrPathComponent) :
    to_string_path (hd :: t) =
      List.foldl pathbuf_push (pathbuf_push [] (componentToString hd))
        (t.map componentToString) := by
  unfold to_string_path
  rw [List.foldl_cons, List.foldl_map]

theorem render_classify {l : List StrPathComponent} (h : WF l) :
    str_path_components (to_string_path l) = l := by
  cases l with
  | nil => decide
  | cons hd t =>
    obtain ⟨hh, hb⟩ := h
    have hrs : ∀ r ∈ t.map componentToString, r ≠ [] ∧ '/' ∉ r := bodyOK_renders_good hb
    rw [to_string_path_cons]
    cases hhd : hd with
    | RootDir =>
      have hpush : pathbuf_push [] (componentToString .RootDir) = ['/'] := by decide
      rw [hpush]
      cases t with
      | nil => decide
      | cons c t' =>
        obtain ⟨hc1, hc2, -, -⟩ := bodyOK_render (hb c (List.mem_cons_self c t'))
        have hrs' : ∀ r ∈ t'.map componentToString, r ≠ [] ∧ '/' ∉ r :=
          fun r hr => hrs r (by rw [List.map_cons]; exact List.mem_cons_of_mem _ hr)
        have hpush1 : pathbuf_push ['/'] (componentToString c) = '/' :: componentToString c := by
          unfold pathbuf_push
          rw [startsWithSlash_eq_false hc2]
          simp
        rw [List.map_cons, List.foldl_cons, hpush1]
        have hlast : ('/' :: componentToString c).getLast? ≠ some '/' := by
          cases hc : componentToString c with
          | nil => exact absurd hc hc1
          | cons x xs =>
            rw [List.getLast?_cons_cons]
            exact getLast?_ne_slash (hc ▸ hc2)
        rw [foldl_push_sepJoin _ _ (by simp) hlast hrs']
        have hX : '/' :: componentToString c ++ sepJoin (t'.map componentToString) =
            '/' :: (componentToString c ++ sepJoin (t'.map componentToString)) := by simp
        rw [hX]
        have hseg : segments ('/' :: (componentToString c ++ sepJoin (t'.map componentToString)))
            = segments (componentToString c ++ sepJoin (t'.map componentToString)) := by
          rw [show '/' :: (componentToString c ++ sepJoin (t'.map componentToString)) =
            [] ++ '/' :: (componentToString c ++ sepJoin (t'.map componentToString)) from rfl,
            segments_append_slash, segments_nil, List.nil_append]
        rw [str_path_components, native_of_slash (by simp [startsWithSlash]), hseg,
          segments_cons_sepJoin _ ⟨hc1, hc2⟩ hrs',
          show componentToString c :: t'.map componentToString =
            (c :: t').map componentToString from rfl,
          filter_map_render hb, homeSubst_cons, if_neg (by simp)]
    | HomeDir =>
      have hpush : pathbuf_push [] (componentToString .HomeDir) = ['~'] := by decide
      rw [hpush, foldl_push_sepJoin _ _ (by decide) (by decide) hrs,
        str_path_components, native_cons_render _ (by decide) hrs, filter_map_render hb,
        homeSubst_cons, if_pos (by decide)]
    | CurDir =>
      have hpush : pathbuf_push [] (componentToString .CurDir) = ['.'] := by decide
      rw [hpush, foldl_push_sepJoin _ _ (by decide) (by decide) hrs,
        str_path_components, native_cons_render _ (by decide) hrs, filter_map_render hb,
        homeSubst_cons, if_neg (by decide)]
      rw [show classifySeg ['.'] = .CurDir from by decide]
    | ParentDir =>
      have hpush : pathbuf_push [] (componentToString .ParentDir) = ['.', '.'] := by decide
      rw [hpush, foldl_push_sepJoin _ _ (by decide) (by decide) hrs,
        str_path_components, native_cons_render _ (by decide) hrs, filter_map_render hb,
        homeSubst_cons, if_neg (by decide)]
      rw [show classifySeg ['.', '.'] = .ParentDir from by decide]
    | Normal n =>
      rw [hhd] at hh
      obtain ⟨⟨hn1, hn2, hn3, hn4⟩, hnt⟩ := hh
      have hclass : classifySeg n = .Normal n := by
        unfold classifySeg; rw [if_neg hn3, if_neg hn4]
      have hpush : pathbuf_push [] (componentToString (.Normal n)) = n := by
        unfold pathbuf_push
        rw [show componentToString (.Normal n) = n from rfl,
          startsWithSlash_eq_false hn2]
        simp
      rw [hpush, foldl_push_sepJoin _ _ hn1 (getLast?_ne_slash hn2) hrs,
        str_path_components, native_cons_render _ ⟨hn1, hn2⟩ hrs, filter_map_render hb,
        homeSubst_cons, hclass, if_neg (by simpa using hnt)]

theorem head_home_not_slash {s : Str}
    (h : (str_path_components s).head? = some .HomeDir) : startsWithSlash s = false := by
  by_cases hs : startsWithSlash s = true
  · rw [components_head_of_slash hs] at h
    exact absurd (Option.some.inj h) (by simp)
  · simpa using hs

theorem rel_home_char (s : Str) :
    str_path_is_relative_to_home s = true ↔
      (str_path_components s).head? = some .HomeDir := by
  unfold str_path_is_relative_to_home
  cases h : (str_path_components s).head? with
  | none => simp
  | some c => cases c <;> simp

theorem rel_of_not_home {s : Str} (h : str_path_is_relative_to_home s = false) :
    str_path_is_relative s = !startsWithSlash s := by
  unfold str_path_is_relative
  unfold str_path_is_relative_to_home at h
  cases hh : (str_path_components s).head? with
  | none => rfl
  | some c =>
    rw [hh] at h
    cases c with
    | HomeDir => exact absurd h (by decide)
    | RootDir => rfl
    | CurDir => rfl
    | ParentDir => rfl
    | Normal n => rfl

/-- C1: for every non-empty path text, exactly one of `is_absolute`,
`is_relative` and `is_relative_to_home` holds; `is_relative_to_home`
holds exactly when the first classified component is `HomeDir`, and on
every other path the first two predicates follow native absoluteness. -/
theorem path_predicates_partition (s : Str) (hs : s ≠ []) :
    ((str_path_is_absolute s = true ∧ str_path_is_relative s = false ∧
        str_path_is_relative_to_home s = false) ∨
      (str_path_is_absolute s = false ∧ str_path_is_relative s = true ∧
        str_path_is_relative_to_home s = false) ∨
      (str_path_is_absolute s = false ∧ str_path_is_relative s = false ∧
        str_path_is_relative_to_home s = true)) ∧
    (str_path_is_relative_to_home s = true ↔
      (str_path_components s).head? = some .HomeDir) ∧
    (str_path_is_relative_to_home s = false →
      str_path_is_absolute s = startsWithSlash s ∧
        str_path_is_relative s = (!startsWithSlash s)) := by
  refine ⟨?_, rel_home_char s,
    fun h => ⟨is_absolute_eq_startsWithSlash s, rel_of_not_home h⟩⟩
  by_cases hh : str_path_is_relative_to_home s = true
  · have hsw : startsWithSlash s = false := head_home_not_slash ((rel_home_char s).mp hh)
    have h1 : str_path_is_absolute s = false := by
      rw [is_absolute_eq_startsWithSlash s, hsw]
    have h2 : str_path_is_relative s = false := by
      unfold str_path_is_relative
      rw [(rel_home_char s).mp hh]
    exact Or.inr (Or.inr ⟨h1, h2, hh⟩)
  · have hh' : str_path_is_relative_to_home s = false := by simpa using hh
    have h2 := rel_of_not_home hh'
    cases hsw : startsWithSlash s with
    | false =>
      exact Or.inr (Or.inl ⟨by rw [is_absolute_eq_startsWithSlash s, hsw],
        by rw [h2, hsw]; rfl, hh'⟩)
    | true =>
      exact Or.inl ⟨by rw [is_absolute_eq_startsWithSlash s, hsw],
        by rw [h2, hsw]; rfl, hh'⟩

/-- Witness for C1 at the concrete path `"~/SRC"`. -/
theorem path_predicates_partition_witness :
    str_path_is_relative_to_home "~/SRC".data = true :=
  ((path_predicates_partition "~/SRC".data (by decide)).2.1).mpr (by decide)

/-- C2: `HomeDir` appears in the classified sequence exactly when the
first native component is the segment `"~"` at index 0; only index 0 is
replaced (the drop-1 tails agree), and `HomeDir` never occurs among the
native components (a `"~"` segment elsewhere stays `Normal "~"`). -/
theorem homeDir_classification (s : Str) :
    (StrPathComponent.HomeDir ∈ str_path_components s ↔
      (nativeComponents s).head? = some (.Normal ['~'])) ∧
    (str_path_components s).drop 1 = (nativeComponents s).drop 1 ∧
    ((nativeComponents s).head? = some (.Normal ['~']) →
      (str_path_components s).head? = some .HomeDir) ∧
    ((nativeComponents s).head? ≠ some (.Normal ['~']) →
      (str_path_components s).head? = (nativeComponents s).head?) ∧
    StrPathComponent.HomeDir ∉ nativeComponents s := by
  have hnm := homeDir_not_mem_native s
  cases hn : nativeComponents s with
  | nil =>
    have hc : str_path_components s = [] := by
      rw [str_path_components, hn, homeSubst_nil]
    rw [hc]
    simp
  | cons c l =>
    have hc : str_path_components s =
        (if c = .Normal ['~'] then .HomeDir else c) :: l := by
      rw [str_path_components, hn, homeSubst_cons]
    have hmemtail : StrPathComponent.HomeDir ∉ l := fun hm =>
      hnm (hn ▸ List.mem_cons_of_mem c hm)
    have hcne : StrPathComponent.HomeDir ≠ c := fun hh =>
      hnm (hn ▸ (by rw [← hh]; exact List.mem_cons_self _ l))
    rw [hc]
    by_cases hcn : c = .Normal ['~']
    · rw [if_pos hcn]
      refine ⟨by simp [hcn], by simp, fun _ => by simp, fun hcontra => ?_, hn ▸ hnm⟩
      exact absurd (by rw [hcn]; rfl) hcontra
    · rw [if_neg hcn]
      refine ⟨?_, by simp, fun hcontra => ?_, fun _ => rfl, hn ▸ hnm⟩
      · simp only [List.mem_cons, List.head?_cons, Option.some.injEq]
        constructor
        · intro h
          rcases h with h | h
          · exact absurd h.symm (fun hx => hcne hx.symm)
          · exact absurd h hmemtail
        · intro h
          exact absurd h hcn
      · have : c = .Normal ['~'] := by simpa using hcontra
        exact absurd this hcn

/-- Witness for C2 at the concrete paths `"~/a"` and `"a/~"`. -/
theorem homeDir_classification_witness :
    (str_path_components "~/a".data).head? = some .HomeDir ∧
      (str_path_components "a/~".data).drop 1 = (nativeComponents "a/~".data).drop 1 :=
  ⟨(homeDir_classification "~/a".data).2.2.1 (by decide),
    (homeDir_classification "a/~".data).2.1⟩

/-- C4: re-classifying the rendering of a classified sequence reproduces
the classified sequence exactly, for every path text (the `HomeDir`
component renders as `"~"` at index 0 and reclassifies as `HomeDir`). -/
theorem classify_render_roundtrip (s : Str) :
    str_path_components (to_string_path (str_path_components s)) = str_path_components s :=
  render_classify (classify_WF s)

/-- C3: when `absolute` succeeds and the consulted environment providers
return absolute texts, the result is absolute and `absolute` is
idempotent: applying it to its own output returns the output unchanged. -/
theorem str_path_absolute_idempotent (cwd home : Option Str) (s r : Str)
    (hcwd : ∀ c, cwd = some c → str_path_is_absolute c = true)
    (hhome : ∀ h, home = some h → str_path_is_absolute h = true)
    (hr : str_path_absolute cwd home s = .ok r) :
    str_path_is_absolute r = true ∧ str_path_absolute cwd home r = .ok r := by
  have key : str_path_is_absolute r = true := by
    unfold str_path_absolute at hr
    by_cases h1 : str_path_is_absolute s = true
    · rw [if_pos h1] at hr
      injection hr with h
      rw [← h]
      exact h1
    · rw [if_neg h1] at hr
      by_cases h2 : str_path_is_relative s = true
      · rw [if_pos h2] at hr
        cases hcw : cwd with
        | none => rw [hcw] at hr; exact absurd hr (by simp)
        | some c =>
          rw [hcw] at hr
          injection hr with h
          rw [← h, is_absolute_eq_startsWithSlash]
          exact startsWithSlash_foldl_push _
            (by rw [← is_absolute_eq_startsWithSlash]; exact hcwd c hcw)
      · rw [if_neg h2] at hr
        cases hh : home with
        | none => rw [hh] at hr; exact absurd hr (by simp)
        | some hd =>
          rw [hh] at hr
          injection hr with h
          rw [← h, is_absolute_eq_startsWithSlash]
          exact startsWithSlash_foldl_push _
            (by rw [← is_absolute_eq_startsWithSlash]; exact hhome hd hh)
  refine ⟨key, ?_⟩
  unfold str_path_absolute
  rw [if_pos key]

/-- Witness for C3: resolving `"~/SRC"` against home `/home/peter` gives
an absolute result that `absolute` returns unchanged. -/
theorem str_path_absolute_idempotent_witness :
    str_path_is_absolute "/home/peter/SRC".data = true ∧
      str_path_absolute (some "/cwd".data) (some "/home/peter".data)
        "/home/peter/SRC".data = .ok "/home/peter/SRC".data :=
  str_path_absolute_idempotent (some "/cwd".data) (some "/home/peter".data)
    "~/SRC".data "/home/peter/SRC".data
    (fun c hc => by injection hc with h; rw [← h]; decide)
    (fun h hh => by injection hh with h2; rw [← h2]; decide)
    (by decide)

theorem simple_relative_eq (c : Str) (home : Option Str) (s : Str) :
    str_path_simple_relative (some c) home s =
      match str_path_absolute (some c) home s with
      | .ok abs_path =>
        match strip_base abs_path c with
        | some rest => .ok rest
        | none => .err .mismatch
      | .err e => .err e := rfl

theorem simple_relative_home_eq (cwd : Option Str) (hd : Str) (s : Str) :
    str_path_simple_relative_home cwd (some hd) s =
      match str_path_absolute cwd (some hd) s with
      | .ok abs_path =>
        match strip_base abs_path hd with
        | some rest => .ok (pathbuf_push (pathbuf_push [] ['~']) rest)
        | none => .err .mismatch
      | .err e => .err e := rfl

theorem absolute_err_char {cwd home : Option Str} {s : Str} {e : PathError}
    (h : str_path_absolute cwd home s = .err e) :
    e = .envUnavailable ∧ (cwd = none ∨ home = none) := by
  unfold str_path_absolute at h
  by_cases h1 : str_path_is_absolute s = true
  · rw [if_pos h1] at h; exact absurd h (by simp)
  · rw [if_neg h1] at h
    by_cases h2 : str_path_is_relative s = true
    · rw [if_pos h2] at h
      cases hcw : cwd with
      | none => rw [hcw] at h; injection h with h'; exact ⟨h'.symm, Or.inl rfl⟩
      | some c => rw [hcw] at h; exact absurd h (by simp)
    · rw [if_neg h2] at h
      cases hh : home with
      | none => rw [hh] at h; injection h with h'; exact ⟨h'.symm, Or.inr rfl⟩
      | some hd => rw [hh] at h; exact absurd h (by simp)

theorem simple_relative_err_char {cwd home : Option Str} {s : Str} {e : PathError}
    (h : str_path_simple_relative cwd home s = .err e) :
    (e = .envUnavailable ∧ (cwd = none ∨ home = none)) ∨ e = .mismatch := by
  cases hcw : cwd with
  | none =>
    subst hcw
    rw [show str_path_simple_relative none home s = .err .envUnavailable from rfl] at h
    injection h with h'
    exact Or.inl ⟨h'.symm, Or.inl rfl⟩
  | some c =>
    subst hcw
    cases ha : str_path_absolute (some c) home s with
    | ok a =>
      cases hsp : strip_base a c with
      | some rest =>
        have heq : str_path_simple_relative (some c) home s = .ok rest := by
          simp only [simple_relative_eq, ha, hsp]
        rw [heq] at h
        exact absurd h (by simp)
      | none =>
        have heq : str_path_simple_relative (some c) home s = .err .mismatch := by
          simp only [simple_relative_eq, ha, hsp]
        rw [heq] at h
        injection h with h'
        exact Or.inr h'.symm
    | err e2 =>
      have heq : str_path_simple_relative (some c) home s = .err e2 := by
        simp only [simple_relative_eq, ha]
      rw [heq] at h
      injection h with h'
      rw [← h']
      rcases absolute_err_char ha with ⟨he, hor⟩
      refine Or.inl ⟨he, Or.inr ?_⟩
      rcases hor with hor | hor
      · exact absurd hor (by simp)
      · exact hor

theorem simple_relative_home_err_char {cwd home : Option Str} {s : Str} {e : PathError}
    (h : str_path_simple_relative_home cwd home s = .err e) :
    (e = .envUnavailable ∧ (cwd = none ∨ home = none)) ∨ e = .mismatch := by
  cases hh : home with
  | none =>
    subst hh
    rw [show str_path_simple_relative_home cwd none s = .err .envUnavailable from rfl] at h
    injection h with h'
    exact Or.inl ⟨h'.symm, Or.inr rfl⟩
  | some hd =>
    subst hh
    cases ha : str_path_absolute cwd (some hd) s with
    | ok a =>
      cases hsp : strip_base a hd with
      | some rest =>
        have heq : str_path_simple_relative_home cwd (some hd) s =
            .ok (pathbuf_push (pathbuf_push [] ['~']) rest) := by
          simp only [simple_relative_home_eq, ha, hsp]
        rw [heq] at h
        exact absurd h (by simp)
      | none =>
        have heq : str_path_simple_relative_home cwd (some hd) s = .err .mismatch := by
          simp only [simple_relative_home_eq, ha, hsp]
        rw [heq] at h
        injection h with h'
        exact Or.inr h'.symm
    | err e2 =>
      have heq : str_path_simple_relative_home cwd (some hd) s = .err e2 := by
        simp only [simple_relative_home_eq, ha]
      rw [heq] at h
      injection h with h'
      rw [← h']
      rcases absolute_err_char ha with ⟨he, hor⟩
      refine Or.inl ⟨he, ?_⟩
      rcases hor with hor | hor
      · exact Or.inl hor
      · exact absurd hor (by simp)

/-- C7: the fallible resolver operations fail only with the typed errors
of the model — environment-fact retrieval (`envUnavailable`, and then
only when a provider is actually unavailable) or a strip mismatch
(`mismatch`) — and `absolute` itself can only fail with
`envUnavailable`; no operation has any other outcome (in the embedding
every operation is a total function into `IoResult`, so no input can
produce a process abort). -/
theorem resolver_errors_typed (cwd home : Option Str) (s : Str) (e : PathError)
    (h : str_path_absolute cwd home s = .err e ∨
      str_path_simple_relative cwd home s = .err e ∨
      str_path_simple_relative_home cwd home s = .err e) :
    ((e = .envUnavailable ∧ (cwd = none ∨ home = none)) ∨ e = .mismatch) ∧
      (str_path_absolute cwd home s = .err e → e = .envUnavailable) := by
  refine ⟨?_, fun ha => (absolute_err_char ha).1⟩
  rcases h with h | h | h
  · exact Or.inl (absolute_err_char h)
  · exact simple_relative_err_char h
  · exact simple_relative_home_err_char h

/-- Witness for C7: with no providers, resolving the relative `"SRC"`
fails with the typed `envUnavailable`. -/
theorem resolver_errors_typed_witness :
    ((PathError.envUnavailable = .envUnavailable ∧
        ((none : Option Str) = none ∨ (none : Option Str) = none)) ∨
      PathError.envUnavailable = .mismatch) ∧
      (str_path_absolute none none "SRC".data = .err .envUnavailable →
        PathError.envUnavailable = .envUnavailable) :=
  resolver_errors_typed none none "SRC".data .envUnavailable (Or.inl (by decide))

/-! ### The components iterator agrees with the segment-based classifier -/

theorem dropSeg_no_slash {p : Str} (h : '/' ∉ p) : dropSeg p = [] := by
  induction p with
  | nil => rfl
  | cons c r ih =>
    have hc : c ≠ '/' := fun hc => h (hc ▸ List.mem_cons_self c r)
    simp only [dropSeg, if_neg hc]
    exact ih (fun hm => h (List.mem_cons_of_mem c hm))

theorem dropSeg_length_lt {p : Str} (h : p ≠ []) : (dropSeg p).length < p.length := by
  induction p with
  | nil => exact absurd rfl h
  | cons c r ih =>
    by_cases hc : c = '/'
    · simp [dropSeg, hc]
    · simp only [dropSeg, if_neg hc, List.length_cons]
      cases r with
      | nil => simp [dropSeg]
      | cons x xs => exact Nat.lt_succ_of_lt (ih (by simp))

theorem splitSlash_unfold (p : Str) :
    splitSlash p = takeSeg p :: (if '/' ∈ p then splitSlash (dropSeg p) else []) := by
  induction p with
  | nil => simp [splitSlash, takeSeg]
  | cons c r ih =>
    by_cases hc : c = '/'
    · subst hc
      simp [splitSlash, takeSeg, dropSeg]
    · obtain ⟨seg, segs, hr⟩ : ∃ seg segs, splitSlash r = seg :: segs := by
        cases h : splitSlash r with
        | nil => exact absurd h (splitSlash_ne_nil r)
        | cons a b => exact ⟨a, b, rfl⟩
      have h1 : splitSlash (c :: r) = (c :: seg) :: segs := by
        simp [splitSlash, hc, hr]
      have h2 := hr.symm.trans ih
      injection h2 with i1 i2
      rw [h1]
      subst i1
      subst i2
      simp only [takeSeg, dropSeg, if_neg hc]
      congr 1
      by_cases hm : '/' ∈ r
      · rw [if_pos hm, if_pos (List.mem_cons_of_mem c hm)]
      · rw [if_neg hm, if_neg (by simp [List.mem_cons, Ne.symm hc, hm])]

theorem segRests_ne_nil (p : Str) : segRests p ≠ [] := by
  cases p with
  | nil => simp [segRests]
  | cons c r =>
    by_cases hc : c = '/'
    · simp [segRests, hc]
    · simp only [segRests, if_neg hc]
      cases h : segRests r <;> simp

theorem segRests_unfold (p : Str) :
    segRests p = (takeSeg p, dropSeg p) :: (if '/' ∈ p then segRests (dropSeg p) else []) := by
  induction p with
  | nil => simp [segRests, takeSeg, dropSeg]
  | cons c r ih =>
    by_cases hc : c = '/'
    · subst hc
      simp [segRests, takeSeg, dropSeg]
    · obtain ⟨seg0, r0, tail, hr⟩ : ∃ seg0 r0 tail, segRests r = (seg0, r0) :: tail := by
        cases h : segRests r with
        | nil => exact absurd h (segRests_ne_nil r)
        | cons a b =>
          obtain ⟨a1, a2⟩ := a
          exact ⟨a1, a2, b, rfl⟩
      have h1 : segRests (c :: r) = (c :: seg0, r0) :: tail := by
        simp [segRests, hc, hr]
      have h2 := hr.symm.trans ih
      injection h2 with i1 i2
      injection i1 with e1 e2
      rw [h1]
      subst e1
      subst e2
      subst i2
      simp only [takeSeg, dropSeg, if_neg hc]
      congr 1
      by_cases hm : '/' ∈ r
      · rw [if_pos hm, if_pos (List.mem_cons_of_mem c hm)]
      · rw [if_neg hm, if_neg (by simp [List.mem_cons, Ne.symm hc, hm])]

theorem bodyNext_unfold (p : Str) :
    bodyNext p = match parseSingle (takeSeg p) with
      | some c => some (c, dropSeg p)
      | none => if '/' ∈ p then bodyNext (dropSeg p) else none := by
  rw [bodyNext, segRests_unfold p, List.findSome?_cons]
  cases hps : parseSingle (takeSeg p) with
  | some c => simp [hps]
  | none =>
    simp only [hps, Option.map_none']
    by_cases hm : '/' ∈ p
    · rw [if_pos hm, if_pos hm]
      rfl
    · rw [if_neg hm, if_neg hm]
      rfl

theorem bodyToList_unfold (p : Str) :
    bodyToList p = (parseSingle (takeSeg p)).toList ++
      (if '/' ∈ p then bodyToList (dropSeg p) else []) := by
  rw [bodyToList, splitSlash_unfold p, List.filterMap_cons]
  cases hps : parseSingle (takeSeg p) with
  | some c =>
    by_cases hm : '/' ∈ p
    · simp [hm, bodyToList]
    · simp [hm]
  | none =>
    by_cases hm : '/' ∈ p
    · simp [hm, bodyToList]
    · simp [hm]

theorem bodyToList_eq_aux : ∀ (n : Nat) (p : Str), p.length ≤ n →
    bodyToList p = (match bodyNext p with
      | none => []
      | some cr => cr.1 :: bodyToList cr.2) := by
  intro n
  induction n with
  | zero =>
    intro p hp
    have hnil : p = [] := List.eq_nil_of_length_eq_zero (Nat.le_zero.mp hp)
    subst hnil
    decide
  | succ n ih =>
    intro p hp
    rw [bodyToList_unfold p, bodyNext_unfold p]
    cases hps : parseSingle (takeSeg p) with
    | some c =>
      by_cases hm : '/' ∈ p
      · rw [if_pos hm]
        simp
      · rw [if_neg hm, dropSeg_no_slash hm]
        simp [bodyToList, splitSlash, parseSingle]
    | none =>
      by_cases hm : '/' ∈ p
      · rw [if_pos hm, if_pos hm]
        have hne : p ≠ [] := List.ne_nil_of_mem hm
        have hlt : (dropSeg p).length ≤ n :=
          Nat.lt_succ_iff.mp (Nat.lt_of_lt_of_le (dropSeg_length_lt hne) hp)
        simp only [Option.toList_none, List.nil_append]
        exact ih (dropSeg p) hlt
      · rw [if_neg hm, if_neg hm]
        simp

theorem bodyToList_eq (p : Str) :
    bodyToList p = (match bodyNext p with
      | none => []
      | some cr => cr.1 :: bodyToList cr.2) :=
  bodyToList_eq_aux p.length p (Nat.le_refl _)

theorem bodyNext_eq_none {p : Str} (h : bodyNext p = none) : bodyToList p = [] := by
  rw [bodyToList_eq p, h]

theorem bodyNext_eq_some {p : Str} {c : StrPathComponent} {r : Str}
    (h : bodyNext p = some (c, r)) : bodyToList p = c :: bodyToList r := by
  rw [bodyToList_eq p, h]

theorem parseSingle_eq (seg : Str) :
    parseSingle seg = if seg = [] ∨ seg = ['.'] then none else some (classifySeg seg) := by
  unfold parseSingle classifySeg
  by_cases h1 : seg = []
  · simp [h1]
  · by_cases h2 : seg = ['.']
    · simp [h1, h2]
    · by_cases h3 : seg = ['.', '.']
      · simp [h1, h2, h3]
      · simp [h1, h2, h3]

theorem filterMap_parseSingle (l : List Str) :
    l.filterMap parseSingle =
      ((l.filter (fun seg => seg ≠ [])).filter (fun seg => seg ≠ ['.'])).map classifySeg := by
  induction l with
  | nil => rfl
  | cons a l ih =>
    by_cases h1 : a = []
    · simp [List.filterMap_cons, parseSingle_eq, h1, ih]
    · by_cases h2 : a = ['.']
      · simp [List.filterMap_cons, parseSingle_eq, h1, h2, ih]
      · simp [List.filterMap_cons, parseSingle_eq, h1, h2, ih]

theorem bodyToList_segments (t : Str) :
    bodyToList t = ((segments t).filter (fun seg => seg ≠ ['.'])).map classifySeg := by
  rw [bodyToList, filterMap_parseSingle]
  rfl

theorem bodyToList_slash_cons (r : Str) : bodyToList ('/' :: r) = bodyToList r := by
  rw [bodyToList, bodyToList,
    show splitSlash ('/' :: r) = [] :: splitSlash r from by simp [splitSlash],
    List.filterMap_cons]
  simp [parseSingle]

theorem takeSeg_dot_include {s : Str} (h : takeSeg s = ['.']) : includeCurDir s = true := by
  cases s with
  | nil => simp [takeSeg] at h
  | cons c r =>
    by_cases hc : c = '/'
    · simp [takeSeg, hc] at h
    · simp only [takeSeg, if_neg hc] at h
      injection h with hc1 hr
      subst hc1
      cases r with
      | nil => rfl
      | cons d rs =>
        by_cases hd : d = '/'
        · subst hd
          simp [includeCurDir]
        · simp [takeSeg, hd] at hr

theorem takeSeg_ne_nil {s : Str} (hs : s ≠ []) (hr : startsWithSlash s = false) :
    takeSeg s ≠ [] := by
  cases s with
  | nil => exact absurd rfl hs
  | cons c r =>
    have hc : c ≠ '/' := by simpa [startsWithSlash] using hr
    simp [takeSeg, hc]

theorem includeCurDir_shape {s : Str} (h : includeCurDir s = true) :
    s = ['.'] ∨ ∃ r, s = '.' :: '/' :: r := by
  cases s with
  | nil => simp [includeCurDir] at h
  | cons c rest =>
    by_cases hc : c = '.'
    · subst hc
      cases rest with
      | nil => exact Or.inl rfl
      | cons d rs =>
        have hd : d = '/' := by simpa [includeCurDir] using h
        subst hd
        exact Or.inr ⟨rs, rfl⟩
    · simp [includeCurDir, hc] at h

theorem iterToList_componentsOf (s : Str) :
    iterToList (componentsOf s) = nativeComponents s := by
  show (if startsWithSlash s = true then
      StrPathComponent.RootDir :: bodyToList (s.drop 1)
    else if includeCurDir s = true then
      StrPathComponent.CurDir :: bodyToList (s.drop 1)
    else bodyToList s) = nativeComponents s
  by_cases hr : startsWithSlash s = true
  · rw [if_pos hr, native_of_slash hr]
    cases s with
    | nil => simp [startsWithSlash] at hr
    | cons c t =>
      have hc : c = '/' := by simpa [startsWithSlash] using hr
      subst hc
      rw [show (('/' :: t : Str)).drop 1 = t from rfl, bodyToList_segments,
        show segments ('/' :: t) = segments t from by
          rw [show ('/' :: t : Str) = [] ++ '/' :: t from rfl, segments_append_slash,
            segments_nil, List.nil_append]]
  · rw [if_neg hr]
    by_cases hic : includeCurDir s = true
    · rw [if_pos hic]
      rcases includeCurDir_shape hic with h | ⟨r, h⟩
      · subst h
        decide
      · subst h
        rw [show (('.' :: '/' :: r : Str)).drop 1 = '/' :: r from rfl, bodyToList_slash_cons,
          bodyToList_segments]
        have hseg : segments ('.' :: '/' :: r) = ['.'] :: segments r := by
          unfold segments
          rw [show splitSlash ('.' :: '/' :: r) = ['.'] :: splitSlash r from by
            simp [splitSlash]]
          rw [List.filter_cons_of_pos (by simp)]
        rw [nativeComponents, if_neg (by simp [startsWithSlash]), hseg]
        simp [classifySeg]
    · rw [if_neg hic]
      by_cases hs : s = []
      · subst hs
        decide
      · have hr' : startsWithSlash s = false := by simpa using hr
        have hf1 : takeSeg s ≠ [] := takeSeg_ne_nil hs hr'
        have hf2 : takeSeg s ≠ ['.'] := fun h => hic (takeSeg_dot_include h)
        have hseg : segments s = takeSeg s ::
            ((if '/' ∈ s then splitSlash (dropSeg s) else []).filter
              (fun seg => seg ≠ [])) := by
          unfold segments
          rw [splitSlash_unfold s, List.filter_cons_of_pos (by simpa using hf1)]
        rw [bodyToList_segments, nativeComponents, if_neg hr, hseg,
          List.filter_cons_of_pos (by simpa using hf2), List.map_cons]

theorem iterNext_eq_none {it : ComponentsM} (h : iterNext it = none) : iterToList it = [] := by
  obtain ⟨p, root, front⟩ := it
  cases front with
  | startDir =>
    simp only [iterNext] at h
    by_cases hro : root = true
    · rw [if_pos hro] at h
      exact absurd h (by simp)
    · rw [if_neg hro] at h
      by_cases hic : includeCurDir p = true
      · rw [if_pos hic] at h
        exact absurd h (by simp)
      · rw [if_neg hic] at h
        cases hb : bodyNext p with
        | some cr => rw [hb] at h; exact absurd h (by simp)
        | none =>
          show (if root = true then _ else if includeCurDir p = true then _
            else bodyToList p) = ([] : List StrPathComponent)
          rw [if_neg hro, if_neg hic]
          exact bodyNext_eq_none hb
  | body =>
    simp only [iterNext] at h
    cases hb : bodyNext p with
    | some cr => rw [hb] at h; exact absurd h (by simp)
    | none => exact bodyNext_eq_none hb

theorem iterNext_eq_some {it : ComponentsM} {c : StrPathComponent} {it2 : ComponentsM}
    (h : iterNext it = some (c, it2)) : iterToList it = c :: iterToList it2 := by
  obtain ⟨p, root, front⟩ := it
  cases front with
  | startDir =>
    simp only [iterNext] at h
    by_cases hro : root = true
    · rw [if_pos hro] at h
      injection h with h1
      injection h1 with hc hit
      subst hc
      rw [← hit]
      show (if root = true then StrPathComponent.RootDir :: bodyToList (p.drop 1) else _) = _
      rw [if_pos hro]
      rfl
    · rw [if_neg hro] at h
      by_cases hic : includeCurDir p = true
      · rw [if_pos hic] at h
        injection h with h1
        injection h1 with hc hit
        subst hc
        rw [← hit]
        show (if root = true then _ else if includeCurDir p = true then
          StrPathComponent.CurDir :: bodyToList (p.drop 1) else _) = _
        rw [if_neg hro, if_pos hic]
        rfl
      · rw [if_neg hic] at h
        cases hb : bodyNext p with
        | none => rw [hb] at h; exact absurd h (by simp)
        | some cr =>
          rw [hb] at h
          injection h with h1
          injection h1 with hc hit
          subst hc
          rw [← hit]
          show (if root = true then _ else if includeCurDir p = true then _
            else bodyToList p) = cr.1 :: iterToList ⟨cr.2, root, .body⟩
          rw [if_neg hro, if_neg hic]
          exact bodyNext_eq_some (by rw [hb])
  | body =>
    simp only [iterNext] at h
    cases hb : bodyNext p with
    | none => rw [hb] at h; exact absurd h (by simp)
    | some cr =>
      rw [hb] at h
      injection h with h1
      injection h1 with hc hit
      subst hc
      rw [← hit]
      exact bodyNext_eq_some (by rw [hb])

/-- Counterexample to C5 as stated: the classified sequence of `"~"` is
the lone `HomeDir` — it contains no `Normal` component — yet `file_name`
returns `some "~"`, because `file_name` inspects the native components,
where `"~"` is `Normal`. -/
theorem file_name_lone_tilde : str_path_file_name "~".data = some "~".data ∧
    str_path_components "~".data = [StrPathComponent.HomeDir] := by decide

/-- C5 (amended): `file_name` returns the text of the final native
component exactly when that component is `Normal`, and `none` exactly
when the native sequence is empty or its final component is `RootDir`,
`CurDir` or `ParentDir`; the `HomeDir` classification plays no role. -/
theorem file_name_last_native (s : Str) :
    (str_path_file_name s = none ↔
      ((nativeComponents s).getLast? = none ∨
        (nativeComponents s).getLast? = some .RootDir ∨
        (nativeComponents s).getLast? = some .CurDir ∨
        (nativeComponents s).getLast? = some .ParentDir)) ∧
    ∀ n, (str_path_file_name s = some n ↔
      (nativeComponents s).getLast? = some (.Normal n)) := by
  have hhome : (nativeComponents s).getLast? ≠ some .HomeDir := fun h =>
    homeDir_not_mem_native s (mem_of_getLast?_eq h)
  unfold str_path_file_name
  cases h : (nativeComponents s).getLast? with
  | none => simp
  | some c =>
    cases c with
    | Normal n => simp
    | HomeDir => exact absurd h hhome
    | RootDir => simp
    | CurDir => simp
    | ParentDir => simp

/-- Witness for C5 (amended) at the specification's examples. -/
theorem file_name_last_native_witness :
    str_path_file_name "/home/peter".data = some "peter".data ∧
      str_path_file_name "/".data = none :=
  ⟨((file_name_last_native "/home/peter".data).2 "peter".data).mpr (by decide),
    (file_name_last_native "/".data).1.mpr (Or.inr (Or.inl (by decide)))⟩

/-- Counterexample to C6 as stated: `"a/./b"` has a `"."` segment at a
non-initial position, and classification drops it instead of preserving
it literally. -/
theorem curdir_dropped :
    (segments "a/./b".data).countP (fun seg => seg = ['.']) = 1 ∧
      str_path_components "a/./b".data = [.Normal "a".data, .Normal "b".data] ∧
      StrPathComponent.CurDir ∉ str_path_components "a/./b".data := by decide

theorem components_congr {s1 s2 : Str} (h1 : startsWithSlash s1 = startsWithSlash s2)
    (h2 : segments s1 = segments s2) : str_path_components s1 = str_path_components s2 := by
  unfold str_path_components nativeComponents
  rw [h1, h2]

theorem segments_slash_cons (t : Str) : segments ('/' :: t) = segments t := by
  rw [show '/' :: t = [] ++ '/' :: t from rfl, segments_append_slash, segments_nil,
    List.nil_append]

theorem countP_parent_filter_map (l : List Str) :
    ((l.filter (fun seg => seg ≠ ['.'])).map classifySeg).countP
      (fun c => c = StrPathComponent.ParentDir) =
      l.countP (fun seg => seg = ['.', '.']) := by
  induction l with
  | nil => rfl
  | cons a l ih =>
    by_cases h1 : a = ['.']
    · rw [List.filter_cons_of_neg (by simp [h1]), List.countP_cons,
        if_neg (by simp [h1]), Nat.add_zero, ih]
    · rw [List.filter_cons_of_pos (by simp [h1]), List.map_cons, List.countP_cons,
        List.countP_cons, ih]
      congr 1
      by_cases h2 : a = ['.', '.']
      · rw [if_pos (by simp [classifySeg, h1, h2]), if_pos (by simp [h2])]
      · rw [if_neg (by simp [classifySeg, h1, h2]), if_neg (by simp [h2])]

theorem countP_curdir_filter_map (l : List Str) :
    ((l.filter (fun seg => seg ≠ ['.'])).map classifySeg).countP
      StrPathComponent.is_cur_dir = 0 := by
  induction l with
  | nil => rfl
  | cons a l ih =>
    by_cases h1 : a = ['.']
    · rw [List.filter_cons_of_neg (by simp [h1])]
      exact ih
    · rw [List.filter_cons_of_pos (by simp [h1]), List.map_cons, List.countP_cons, ih]
      have hcd : StrPathComponent.is_cur_dir (classifySeg a) = false := by
        unfold classifySeg
        rw [if_neg h1]
        split <;> rfl
      rw [hcd]
      rfl

theorem classifySeg_parent_iff (seg : Str) :
    classifySeg seg = .ParentDir ↔ seg = ['.', '.'] := by
  unfold classifySeg
  by_cases h1 : seg = ['.']
  · rw [if_pos h1]
    constructor
    · intro h; exact absurd h (by simp)
    · intro h; exact absurd (h1.symm.trans h) (by simp)
  · rw [if_neg h1]
    by_cases h2 : seg = ['.', '.']
    · simp [h2]
    · rw [if_neg h2]
      simp [h2]

theorem classifySeg_curdir_iff (seg : Str) :
    classifySeg seg = .CurDir ↔ seg = ['.'] := by
  unfold classifySeg
  by_cases h1 : seg = ['.']
  · simp [h1]
  · rw [if_neg h1]
    by_cases h2 : seg = ['.', '.']
    · rw [if_pos h2]
      constructor
      · intro h; exact absurd h (by simp)
      · intro h; exact absurd h h1
    · rw [if_neg h2]
      simp [h1]

/-- C6 (amended): classification follows the platform lexical rules —
runs of separators collapse and a trailing separator is ignored (for a
non-empty text) — and `".."` segments are preserved literally at every
position (the `ParentDir` count equals the `".."` segment count), while
`"."` segments survive only as the leading component of a relative path:
the classified sequence holds one `CurDir` when the text is relative and
its first segment is `"."`, and none otherwise. -/
theorem components_lexical_rules (s t : Str) :
    (str_path_components (s ++ '/' :: '/' :: t) = str_path_components (s ++ '/' :: t)) ∧
    (s ≠ [] → str_path_components (s ++ ['/']) = str_path_components s) ∧
    ((str_path_components s).countP (fun c => c = StrPathComponent.ParentDir) =
      (segments s).countP (fun seg => seg = ['.', '.'])) ∧
    ((str_path_components s).countP StrPathComponent.is_cur_dir =
      if startsWithSlash s = false ∧ (segments s).head? = some ['.'] then 1 else 0) := by
  refine ⟨?_, ?_, ?_, ?_⟩
  · refine components_congr ?_ ?_
    · cases s <;> simp [startsWithSlash]
    · rw [show s ++ '/' :: '/' :: t = s ++ '/' :: ('/' :: t) from rfl,
        segments_append_slash, segments_slash_cons, segments_append_slash]
  · intro hs
    refine components_congr ?_ ?_
    · cases s with
      | nil => exact absurd rfl hs
      | cons c r => simp [startsWithSlash]
    · rw [show s ++ ['/'] = s ++ '/' :: [] from rfl, segments_append_slash, segments_nil,
        List.append_nil]
  · unfold str_path_components
    by_cases hs : startsWithSlash s = true
    · rw [native_of_slash hs, homeSubst_cons, if_neg (by simp), List.countP_cons,
        countP_parent_filter_map]
      simp
    · rw [nativeComponents, if_neg hs]
      cases hseg : segments s with
      | nil => rw [homeSubst_nil]; rfl
      | cons first rest =>
        rw [homeSubst_cons, List.countP_cons, countP_parent_filter_map, List.countP_cons]
        congr 1
        by_cases h2 : first = ['.', '.']
        · rw [(classifySeg_parent_iff first).mpr h2]
          simp [h2]
        · by_cases ht : classifySeg first = .Normal ['~']
          · rw [if_pos ht]
            simp [h2]
          · rw [if_neg ht]
            have hcs : ¬ classifySeg first = .ParentDir :=
              fun hh => h2 ((classifySeg_parent_iff first).mp hh)
            simp [hcs, h2]
  · unfold str_path_components
    by_cases hs : startsWithSlash s = true
    · rw [native_of_slash hs, homeSubst_cons, if_neg (by simp), List.countP_cons,
        countP_curdir_filter_map]
      simp [StrPathComponent.is_cur_dir, hs]
    · have hs' : startsWithSlash s = false := by simpa using hs
      rw [nativeComponents, if_neg hs]
      cases hseg : segments s with
      | nil =>
        rw [homeSubst_nil]
        simp [hs']
      | cons first rest =>
        rw [homeSubst_cons, List.countP_cons, countP_curdir_filter_map, Nat.zero_add]
        by_cases h1 : first = ['.']
        · rw [(classifySeg_curdir_iff first).mpr h1]
          simp [StrPathComponent.is_cur_dir, hs', h1]
        · have hcs : ¬ classifySeg first = .CurDir :=
            fun hh => h1 ((classifySeg_curdir_iff first).mp hh)
          by_cases ht : classifySeg first = .Normal ['~']
          · rw [if_pos ht]
            simp [StrPathComponent.is_cur_dir, hs', h1]
          · rw [if_neg ht]
            have hcc : StrPathComponent.is_cur_dir (classifySeg first) = false := by
              cases hc2 : classifySeg first with
              | CurDir => exact absurd hc2 hcs
              | RootDir => rfl
              | HomeDir => rfl
              | ParentDir => rfl
              | Normal n => rfl
            rw [hcc]
            simp [hs', h1]

/-- Witness for C6 (amended): trailing-separator invariance at `"a"`. -/
theorem components_lexical_rules_witness :
    str_path_components ("a".data ++ ['/']) = str_path_components "a".data :=
  (components_lexical_rules "a".data "b".data).2.1 (by decide)

/-- C10: `expand_home_dir` returns an absolute path unchanged; it
expands only a relative, non-existing path whose first native component
is the literal `"~"` and only when a home directory is available,
pushing the component iterator's raw `as_path` remainder onto the home
directory — the remainder's components are exactly the native
components after the leading `"~"`; every other case — an existing
relative path (even one starting with a `"~"`-named entry), a relative
path not led by `"~"`, or a missing home directory — yields `none`. -/
theorem expand_home_dir_cases (ex : Str → Bool) (home : Option Str) (p : Str) :
    (startsWithSlash p = true → expand_home_dir ex home p = some p) ∧
    (startsWithSlash p = false → ex p = true → expand_home_dir ex home p = none) ∧
    (startsWithSlash p = false → ex p = false →
      ((nativeComponents p).head? ≠ some (.Normal ['~']) →
        expand_home_dir ex home p = none) ∧
      ((nativeComponents p).head? = some (.Normal ['~']) →
        ∃ it, iterNext (componentsOf p) = some (.Normal ['~'], it) ∧
          expand_home_dir ex home p =
            home.map (fun hd => pathbuf_push hd (asPath it)) ∧
          iterToList it = (nativeComponents p).drop 1)) := by
  refine ⟨?_, ?_, ?_⟩
  · intro h
    unfold expand_home_dir
    rw [if_pos h]
  · intro h1 h2
    unfold expand_home_dir
    rw [if_neg (by simp [h1]), if_neg (by simp [h2])]
  · intro h1 h2
    unfold expand_home_dir
    rw [if_neg (by simp [h1]), if_pos h2]
    cases hq : iterNext (componentsOf p) with
    | none =>
      have hl : nativeComponents p = [] := by
        rw [← iterToList_componentsOf, iterNext_eq_none hq]
      constructor
      · intro _
        rfl
      · intro hh
        rw [hl] at hh
        exact absurd hh (by simp)
    | some cr =>
      obtain ⟨c1, it⟩ := cr
      have hl : nativeComponents p = c1 :: iterToList it := by
        rw [← iterToList_componentsOf]
        exact iterNext_eq_some hq
      constructor
      · intro hh
        cases c1 with
        | Normal t =>
          have ht : t ≠ ['~'] := fun he => hh (by rw [hl, he]; rfl)
          simp [ht]
        | RootDir => rfl
        | HomeDir => rfl
        | CurDir => rfl
        | ParentDir => rfl
      · intro hh
        have hc1 : c1 = .Normal ['~'] := by
          rw [hl] at hh
          simpa using hh
        subst hc1
        refine ⟨it, rfl, ?_, ?_⟩
        · cases home with
          | none => rfl
          | some hd => rfl
        · simp [hl]

/-- Witness for C10: expansion of `"~/SRC"` against home `/home/peter`
when the path does not exist, and the `none`/unchanged cases. -/
theorem expand_home_dir_cases_witness :
    expand_home_dir (fun _ => false) (some "/home/peter".data) "~/SRC".data =
        some "/home/peter/SRC".data ∧
      expand_home_dir (fun _ => true) (some "/home/peter".data) "~/SRC".data = none ∧
      expand_home_dir (fun _ => false) (some "/home/peter".data) "/x".data =
        some "/x".data := by
  refine ⟨?_, ?_, ?_⟩
  · obtain ⟨it, h1, h2, -⟩ := ((expand_home_dir_cases (fun _ => false)
      (some "/home/peter".data) "~/SRC".data).2.2 (by decide) rfl).2 (by decide)
    have h3 : iterNext (componentsOf "~/SRC".data) =
        some (.Normal ['~'], ⟨"SRC".data, false, .body⟩) := by decide
    rw [h3] at h1
    injection h1 with h4
    injection h4 with h5 h6
    rw [h2, ← h6]
    decide
  · exact (expand_home_dir_cases (fun _ => true) (some "/home/peter".data)
      "~/SRC".data).2.1 (by decide) rfl
  · exact (expand_home_dir_cases (fun _ => false) (some "/home/peter".data)
      "/x".data).1 (by decide)

/-- Counterexample to C9 as stated: a per-entry error of any kind other
than not-found and permission-denied makes `usable_dir_entries` abort
the process, not return the call's typed error result. -/
theorem dir_listing_other_error_aborts :
    usable_dir_entries [] (.ok [.ok ⟨"x".data, .error .other⟩]) = .abort ∧
      ListingOutcome.abort ≠ .err .other := by
  exact ⟨rfl, by decide⟩

theorem processEntries_benign (dirPath : Str) (lst : List (Except IoKind DirEntryM))
    (h : lst.all (fun e => !entryOther e) = true) :
    processEntries dirPath lst = .ok (listSuccesses lst) (listReports dirPath lst) := by
  induction lst with
  | nil => rfl
  | cons e rest ih =>
    rw [List.all_cons, Bool.and_eq_true] at h
    obtain ⟨he, hrest⟩ := h
    have ihr := ih hrest
    cases e with
    | ok de =>
      cases hm : de.meta with
      | ok ft =>
        simp only [processEntries, hm, ihr, listSuccesses, listReports,
          List.filterMap_cons]
      | error k =>
        cases k with
        | notFound =>
          simp only [processEntries, hm, ihr, listSuccesses, listReports,
            List.filterMap_cons]
        | permissionDenied =>
          simp only [processEntries, hm, ihr, listSuccesses, listReports,
            List.filterMap_cons]
        | other =>
          rw [show entryOther (.ok de) = true from by simp [entryOther, hm]] at he
          exact absurd he (by simp)
    | error k =>
      cases k with
      | notFound =>
        simp only [processEntries, ihr, listSuccesses, listReports, List.filterMap_cons]
      | permissionDenied =>
        simp only [processEntries, ihr, listSuccesses, listReports, List.filterMap_cons]
      | other =>
        rw [show entryOther (.error (α := DirEntryM) .other) = true from rfl] at he
        exact absurd he (by simp)

theorem processEntries_abort (dirPath : Str) (lst : List (Except IoKind DirEntryM))
    (h : lst.all (fun e => !entryOther e) = false) :
    processEntries dirPath lst = .abort := by
  induction lst with
  | nil => exact absurd h (by simp)
  | cons e rest ih =>
    rw [List.all_cons] at h
    by_cases he : entryOther e = true
    · cases e with
      | ok de =>
        cases hm : de.meta with
        | ok ft =>
          rw [show entryOther (.ok de) = false from by simp [entryOther, hm]] at he
          exact absurd he (by simp)
        | error k =>
          cases k with
          | notFound =>
            rw [show entryOther (.ok de) = false from by simp [entryOther, hm]] at he
            exact absurd he (by simp)
          | permissionDenied =>
            rw [show entryOther (.ok de) = false from by simp [entryOther, hm]] at he
            exact absurd he (by simp)
          | other => simp only [processEntries, hm]
      | error k =>
        cases k with
        | notFound => exact absurd he (by decide)
        | permissionDenied => exact absurd he (by decide)
        | other => simp only [processEntries]
    · have he' : entryOther e = false := by simpa using he
      rw [he'] at h
      simp only [Bool.not_false, Bool.true_and] at h
      have ihr := ih h
      cases e with
      | ok de =>
        cases hm : de.meta with
        | ok ft => simp only [processEntries, hm, ihr]
        | error k =>
          cases k with
          | notFound => simp only [processEntries, hm, ihr]
          | permissionDenied => simp only [processEntries, hm, ihr]
          | other =>
            rw [show entryOther (.ok de) = true from by simp [entryOther, hm]] at he'
            exact absurd he' (by simp)
      | error k =>
        cases k with
        | notFound => simp only [processEntries, ihr]
        | permissionDenied => simp only [processEntries, ihr]
        | other =>
          rw [show entryOther (.error (α := DirEntryM) .other) = true from rfl] at he'
          exact absurd he' (by simp)

/-- C9 (amended): a wholesale `read_dir` failure is the call's typed
error; in the entry loop, not-found entries are skipped silently and
permission-denied entries are reported and skipped while all remaining
usable entries are still returned, but a per-entry error of any other
kind aborts the whole process (rather than surfacing as the call's typed
error result). -/
theorem usable_dir_entries_behavior (dirPath : Str)
    (lst : List (Except IoKind DirEntryM)) :
    (∀ k, usable_dir_entries dirPath (.error k) = .err k) ∧
    (lst.all (fun e => !entryOther e) = true →
      usable_dir_entries dirPath (.ok lst) =
        .ok (listSuccesses lst) (listReports dirPath lst)) ∧
    (lst.all (fun e => !entryOther e) = false →
      usable_dir_entries dirPath (.ok lst) = .abort) :=
  ⟨fun _ => rfl, processEntries_benign dirPath lst, processEntries_abort dirPath lst⟩

/-- Witness for C9 (amended): one usable entry, one vanished entry and
one permission-denied entry; the vanished entry is skipped, the
permission-denied one is reported, and the usable entry is returned. -/
theorem usable_dir_entries_behavior_witness :
    usable_dir_entries "d".data
        (.ok [.ok ⟨"a".data, .ok .file⟩, .ok ⟨"b".data, .error .notFound⟩,
          .ok ⟨"c".data, .error .permissionDenied⟩]) =
      .ok [⟨"a".data, .file⟩] ["c".data] := by
  have h := (usable_dir_entries_behavior "d".data
    [.ok ⟨"a".data, .ok .file⟩, .ok ⟨"b".data, .error .notFound⟩,
      .ok ⟨"c".data, .error .permissionDenied⟩]).2.1 (by decide)
  rw [h]
  decide
